import Mathlib

/-
  Verification of the crawl orchestration core of `src/crawler.py`
  (WebPageCrawler).  Python functions are shallowly embedded as Lean
  functions; the cooperative-concurrency parts (asyncio) are embedded as
  explicit state passing, with one Lean step per atomic segment between
  `await` suspension points.  External collaborators (the Playwright page,
  the network, the clock, the filesystem) are parameters of the model.
-/

namespace WebCrawler

/-! ## String helpers from the source (`sanitize_filename`, `normalize_url`) -/

/-- Characters matched by the character class in the first `re.sub` of
`sanitize_filename` in the source: `[:\/\\\?\%\*\|\"<>\n\r]`. -/
def badFilenameChar (c : Char) : Bool :=
  ([':', '/', '\\', '?', '%', '*', '|', '\"', '<', '>', '\n', '\r'] : List Char).contains c

/-- ASCII whitespace matched by `\s` in the second `re.sub` of
`sanitize_filename`. -/
def isPythonSpace (c : Char) : Bool :=
  ([' ', '\t', '\n', '\r', '\x0b', '\x0c'] : List Char).contains c

/-- Replace each maximal run of characters satisfying `p` by the single
character `r` (the effect of `re.sub("[...]+", "_", s)`).  The boolean flag
records whether we are inside a run. -/
def collapseRunsGo (p : Char → Bool) (r : Char) : Bool → List Char → List Char
  | _, [] => []
  | inRun, c :: cs =>
    if p c then
      if inRun then collapseRunsGo p r true cs
      else r :: collapseRunsGo p r true cs
    else c :: collapseRunsGo p r false cs

def collapseRuns (p : Char → Bool) (r : Char) (cs : List Char) : List Char :=
  collapseRunsGo p r false cs

/-- Python `s.strip("_")`: drop leading and trailing underscores. -/
def stripUnderscores (cs : List Char) : List Char :=
  ((cs.dropWhile (fun c => c == '_')).reverse.dropWhile (fun c => c == '_')).reverse

/-- Embedding of `sanitize_filename(s, max_len)` from the source:
collapse runs of forbidden filename characters to `_`, collapse runs of
whitespace to `_`, truncate to `max_len`, strip underscores, and fall back
to `"page"` when the result is empty. -/
def sanitize_filename (s : String) (max_len : Nat) : String :=
  let s1 := collapseRuns badFilenameChar '_' s.data
  let s2 := collapseRuns isPythonSpace '_' s1
  let s3 := stripUnderscores (s2.take max_len)
  if s3 = [] then "page" else String.mk s3

/-- Embedding of `normalize_url` from the source: `urldefrag` keeps the part
of the URL before the first `#` (the fragment is dropped). -/
def normalize_url (url : String) : String :=
  String.mk (url.data.takeWhile (fun c => c != '#'))

/-- Python `url.startswith(p)`. -/
def startswith (url p : String) : Bool :=
  p.data.isPrefixOf url.data

/-! ## URL parsing (the slice of `urllib.parse.urlparse` the source uses:
`parsed.scheme`, `parsed.netloc`) for absolute `http(s)://` URLs. -/

/-- Split a character list at the first occurrence of `sep`; if `sep` is
absent, the second component is empty. -/
def splitFirst (sep : Char) : List Char → List Char × List Char
  | [] => ([], [])
  | c :: cs =>
    if c = sep then ([], cs)
    else
      let p := splitFirst sep cs
      (c :: p.1, p.2)

def lowerChars (cs : List Char) : List Char := cs.map Char.toLower

/-- Modelled slice of `urlparse`: scheme (lowercased, before the first `:`)
and the remaining characters.  A URL without `:` has an empty scheme. -/
def urlSplitScheme (u : String) : String × List Char :=
  if u.data.contains ':' then
    let p := splitFirst ':' u.data
    (String.mk (lowerChars p.1), p.2)
  else ("", u.data)

/-- Modelled `urlparse(u).netloc` for absolute URLs: the part after `//`
up to the next `/`, `?` or `#`. -/
def urlNetloc (u : String) : String :=
  let rest := (urlSplitScheme u).2
  if rest.take 2 = ['/', '/'] then
    String.mk ((rest.drop 2).takeWhile (fun c => !(c == '/' || c == '?' || c == '#')))
  else ""

/-- The origin string built in `can_fetch_robots`:
`f"{parsed.scheme}://{parsed.netloc}"`. -/
def originOf (u : String) : String :=
  (urlSplitScheme u).1 ++ "://" ++ urlNetloc u

/-! ## Configuration: `Crawler.__init__` -/

/-- The three refresh modes after `__init__` validation (`pull`,
`pagination`, everything else treated as `none`). -/
inductive RefreshMode
  | pull
  | pagination
  | noneMode
deriving Repr, DecidableEq

def lowerString (s : String) : String := String.mk (lowerChars s.data)

/-- Embedding of the `refresh_mode` handling in `__init__`:
`refresh_mode.lower() if refresh_mode else "none"`, then anything outside
`("pull", "pagination", "none")` is replaced by `"none"` with a warning. -/
def parseRefreshMode (refresh_mode : Option String) : RefreshMode :=
  let rm := match refresh_mode with
    | Option.none => "none"
    | Option.some s => if s = "" then "none" else lowerString s
  if rm = "pull" then RefreshMode.pull
  else if rm = "pagination" then RefreshMode.pagination
  else RefreshMode.noneMode

/-- The configuration fields of the `Crawler` object after `__init__`.
`allowlist` embeds the source field `self.prefixes` (the URL prefix
allow-list); `delay_s` (a Python float of seconds) is embedded as a
rational. -/
structure Crawler where
  start_url : String
  concurrency : Int
  max_depth : Int
  timeout_ms : Int
  delay_s : ℚ
  refresh_mode : RefreshMode
  obey_robots : Bool
  no_new_limit : Int
  allowlist : List String
deriving Repr

/-- Embedding of `Crawler.__init__`: numeric options are clamped with
`max`, the start URL is normalized, and the refresh mode is parsed.
(The Python `isinstance(prefixes, str)` wrapping is resolved by taking a
list; path-creation side effects are outside the model.) -/
def Crawler.init (start_url : String) (concurrency max_depth timeout_ms : Int)
    (delay_s : ℚ) (refresh_mode : Option String) (no_new_limit : Int)
    (allowlist : List String) (obey_robots : Bool) : Crawler :=
  { start_url := normalize_url start_url
    concurrency := max 1 concurrency
    max_depth := max 1 max_depth
    timeout_ms := max 1000 timeout_ms
    delay_s := max 0 delay_s
    refresh_mode := parseRefreshMode refresh_mode
    obey_robots := obey_robots
    no_new_limit := max 1 no_new_limit
    allowlist := allowlist }

/-! ## Link filter (`Crawler.prefix_allowed`, `Crawler._extract_links_from_page`) -/

/-- Embedding of `Crawler.prefix_allowed`: an empty allow-list accepts every
URL; otherwise the URL must start with one of the listed prefixes. -/
def matchesAllowlist (ps : List String) (url : String) : Bool :=
  if ps = [] then true
  else ps.any (fun p => startswith url p)

/-- One record of the history mapping (`self.history[url]`). -/
structure HistoryRecord where
  filename : String
  sha1 : String
  saved_at : String
deriving Repr, DecidableEq

/-- The in-memory crawl state of a run: `self.history`,
`self.processed_urls` and `self.seen_urls` (Python dict and sets embedded
as association list and membership lists). -/
structure RunState where
  history : List (String × HistoryRecord)
  processed : List String
  seen : List String
deriving Repr

/-- Python dict assignment `d[k] = v` on an association list. -/
def dictInsert (k : String) (v : HistoryRecord) :
    List (String × HistoryRecord) → List (String × HistoryRecord)
  | [] => [(k, v)]
  | kv :: rest => if kv.1 = k then (k, v) :: rest else kv :: dictInsert k v rest

/-- Python `set.add` on a membership list (no duplicate entry is added). -/
def setAdd (x : String) (s : List String) : List String :=
  if x ∈ s then s else x :: s

/-- Embedding of the filter loop of `Crawler._extract_links_from_page`:
for each extracted `href`, skip empty strings, normalize, reject when a
non-empty allow-list matches none of its prefixes, reject URLs already in
`seen_urls` or `processed_urls`, otherwise add to `seen_urls` and emit.
Returns the updated state and the emitted list `out`. -/
def extract_links_from_page (ps : List String) : RunState → List String → RunState × List String
  | st, [] => (st, [])
  | st, h :: rest =>
    if h = "" then extract_links_from_page ps st rest
    else if ps ≠ [] ∧ matchesAllowlist ps (normalize_url h) = false then
      extract_links_from_page ps st rest
    else if normalize_url h ∈ st.seen then
      extract_links_from_page ps st rest
    else if normalize_url h ∈ st.processed then
      extract_links_from_page ps st rest
    else
      ((extract_links_from_page ps { st with seen := normalize_url h :: st.seen } rest).1,
        normalize_url h ::
          (extract_links_from_page ps { st with seen := normalize_url h :: st.seen } rest).2)

/-! ## Robots policy: the slice of `urllib.robotparser.RobotFileParser` the
source uses (CPython 3.x), and `Crawler.can_fetch_robots`. -/

/-- State of a `RobotFileParser` object.  `entryAllows` stands for the
decision of the parsed entries and default entry (including the final
"agent not found ==> access granted"); `last_checked = 0` means the file
has never been read. -/
structure RobotFileParser where
  disallow_all : Bool
  allow_all : Bool
  last_checked : Nat
  entryAllows : String → String → Bool

/-- A freshly constructed `RobotFileParser()`: no entries, both flags
false, `last_checked = 0`. -/
def RobotFileParser.fresh : RobotFileParser :=
  { disallow_all := false, allow_all := false, last_checked := 0,
    entryAllows := fun _ _ => true }

/-- Embedding of `RobotFileParser.can_fetch` from CPython's
`urllib/robotparser.py`: `disallow_all` denies, `allow_all` allows, an
unread parser (`if not self.last_checked: return False`) denies everything,
otherwise the parsed entries decide. -/
def RobotFileParser.can_fetch (rp : RobotFileParser) (useragent url : String) : Bool :=
  if rp.disallow_all then false
  else if rp.allow_all then true
  else if rp.last_checked = 0 then false
  else rp.entryAllows useragent url

/-- Outcome of `urllib.request.urlopen` + parse inside
`RobotFileParser.read`: a successful parse, an `HTTPError` (handled inside
`read`), or any other exception (propagates to the caller). -/
inductive RobotsFetchResult
  | raised
  | httpError (code : Nat)
  | okPolicy (allows : String → String → Bool)

/-- Embedding of `RobotFileParser.read`: an `HTTPError` sets `disallow_all`
for 401/403 and `allow_all` for other 4xx codes; a successful fetch parses
the lines (`parse` calls `modified()`, making `last_checked` nonzero); any
other exception propagates (`Option.none`). -/
def RobotFileParser.readResult (rp : RobotFileParser) :
    RobotsFetchResult → Option RobotFileParser
  | RobotsFetchResult.raised => Option.none
  | RobotsFetchResult.httpError code =>
    if code = 401 ∨ code = 403 then Option.some { rp with disallow_all := true }
    else if 400 ≤ code ∧ code < 500 then Option.some { rp with allow_all := true }
    else Option.some rp
  | RobotsFetchResult.okPolicy f =>
    Option.some { rp with last_checked := 1, entryAllows := f }

/-- Python dict lookup `self.robots_cache.get(origin)`. -/
def cacheLookup (cache : List (String × RobotFileParser)) (origin : String) :
    Option RobotFileParser :=
  (cache.find? (fun kv => kv.1 == origin)).map Prod.snd

/-- Python dict assignment `self.robots_cache[origin] = rp` (only reached
when the key is absent). -/
def cacheInsert (origin : String) (rp : RobotFileParser)
    (cache : List (String × RobotFileParser)) : List (String × RobotFileParser) :=
  (origin, rp) :: cache

/-- Embedding of `Crawler.can_fetch_robots`: without `obey_robots` every
URL is allowed.  Otherwise the per-origin cache is consulted; on a miss a
fresh parser reads `robots.txt` — if the read raises, the (never-read)
parser is cached and `True` returned ("assuming allowed"); on a non-raising
read the parser is cached and `rp.can_fetch("*", url)` decides, as it does
on every later cache hit. -/
def can_fetch_robots (obey_robots : Bool) (fetch : String → RobotsFetchResult)
    (cache : List (String × RobotFileParser)) (url : String) :
    List (String × RobotFileParser) × Bool :=
  if obey_robots = false then (cache, true)
  else
    let origin := originOf url
    match cacheLookup cache origin with
    | Option.some rp => (cache, rp.can_fetch "*" url)
    | Option.none =>
      let rp := RobotFileParser.fresh
      match rp.readResult (fetch origin) with
      | Option.none => (cacheInsert origin rp cache, true)
      | Option.some rp' => (cacheInsert origin rp' cache, rp'.can_fetch "*" url)

/-! ## Politeness: `Crawler.domain_delay_wait` under asyncio's cooperative
scheduling.  The function body has exactly one suspension point (the
`await asyncio.sleep(...)` taken when the delay has not elapsed), so it is
embedded as a two-phase state machine: one atomic step from `ready` either
finishes (read, compare and update run with no suspension in between) or
suspends; a second atomic step after the sleep writes the new last-fetch
time and returns. -/

/-- Phase of one task inside `domain_delay_wait`: `observedLast` is the
`last = self.per_domain_last[domain]` value it read on entry, `wake` the
time its sleep ends, `release` the time the call returns.  Timestamps and
the delay are modelled as integers (think microsecond ticks); only their
ordered arithmetic matters to `domain_delay_wait`. -/
inductive WaiterPhase
  | ready
  | sleeping (observedLast wake : ℤ)
  | finished (observedLast release : ℤ)
deriving Repr, DecidableEq

/-- The shared state: the clock (`time.time()`) and
`self.per_domain_last[domain]` for the one domain both tasks target. -/
structure DomainClock where
  clock : ℤ
  last : ℤ
deriving Repr, DecidableEq

/-- One atomic segment of `domain_delay_wait`.  From `ready`: read `now`
and `last`; if `elapsed < delay_s` suspend until `now + (delay_s -
elapsed)` (the update happens only after the sleep); otherwise update
`per_domain_last` and return in the same atomic step.  From `sleeping`:
set `per_domain_last[domain] = time.time()` and return. -/
def waiterStep (delay : ℤ) (s : DomainClock) : WaiterPhase → DomainClock × WaiterPhase
  | WaiterPhase.ready =>
    let now := s.clock
    let lastv := s.last
    let elapsed := now - lastv
    if elapsed < delay then (s, WaiterPhase.sleeping lastv (now + (delay - elapsed)))
    else ({ s with last := s.clock }, WaiterPhase.finished lastv s.clock)
  | WaiterPhase.sleeping l _ => ({ s with last := s.clock }, WaiterPhase.finished l s.clock)
  | WaiterPhase.finished l r => (s, WaiterPhase.finished l r)

/-- Two concurrent tasks calling `domain_delay_wait` for the same domain. -/
structure TwoWaiters where
  st : DomainClock
  a : WaiterPhase
  b : WaiterPhase
deriving Repr, DecidableEq

/-- Run one scheduling decision: advance the clock to `t` and run the next
atomic segment of waiter `a` (`who = true`) or `b`. -/
def schedStep (delay : ℤ) (s : TwoWaiters) (who : Bool) (t : ℤ) : TwoWaiters :=
  let st' : DomainClock := { s.st with clock := t }
  if who then
    let p := waiterStep delay st' s.a
    { st := p.1, a := p.2, b := s.b }
  else
    let p := waiterStep delay st' s.b
    { st := p.1, a := s.a, b := p.2 }

/-- A phase may be scheduled at time `t` when the task is runnable: ready
tasks at any time, sleeping tasks once their timer is due, finished tasks
never. -/
def phaseReadyOrDue (ph : WaiterPhase) (t : ℤ) : Bool :=
  match ph with
  | WaiterPhase.ready => true
  | WaiterPhase.sleeping _ w => decide (w ≤ t)
  | WaiterPhase.finished _ _ => false

/-- A schedule (a list of `(which task, clock time)` decisions) is valid
when the clock never goes backwards and every scheduled task is runnable —
exactly the schedules asyncio's event loop can produce. -/
def validSched (delay : ℤ) : TwoWaiters → List (Bool × ℤ) → Bool
  | _, [] => true
  | s, wt :: rest =>
    decide (s.st.clock ≤ wt.2) &&
    phaseReadyOrDue (if wt.1 then s.a else s.b) wt.2 &&
    validSched delay (schedStep delay s wt.1 wt.2) rest

/-- Execute a schedule. -/
def execSched (delay : ℤ) : TwoWaiters → List (Bool × ℤ) → TwoWaiters
  | s, [] => s
  | s, wt :: rest => execSched delay (schedStep delay s wt.1 wt.2) rest

/-- The release time a finished waiter reports. -/
def releaseOf : WaiterPhase → Option ℤ
  | WaiterPhase.finished _ r => Option.some r
  | _ => Option.none

/-! ## Atomic history persistence: `write_json_atomic` and
`Crawler.save_history_entry`.  The filesystem is the canonical history path
and the `.tmp` path; writing the temp file is a sequence of atomic events
(truncate-on-open, then one append per character) and `os.replace` is one
atomic event, so an interruption is a prefix of the event list. -/

/-- The two paths `write_json_atomic` touches; a file's content is its
character sequence, `Option.none` meaning the file does not exist. -/
structure DiskState where
  canonical : Option (List Char)
  tmp : Option (List Char)
deriving Repr, DecidableEq

inductive FsEvent
  | truncTmp
  | appendTmp (c : Char)
  | replaceCanonical
  | unlinkTmp
deriving Repr, DecidableEq

def applyEvent (d : DiskState) : FsEvent → DiskState
  | FsEvent.truncTmp => { d with tmp := Option.some [] }
  | FsEvent.appendTmp c =>
    { d with tmp := Option.some ((d.tmp.getD []) ++ [c]) }
  | FsEvent.replaceCanonical => { canonical := d.tmp, tmp := Option.none }
  | FsEvent.unlinkTmp => { d with tmp := Option.none }

def applyEvents (d : DiskState) (es : List FsEvent) : DiskState := es.foldl applyEvent d

/-- The event sequence of an uninterrupted `write_json_atomic(path, data)`:
open/truncate the `.tmp` file, write the serialized content, then
`os.replace` it over the canonical path. -/
def writeScript (content : String) : List FsEvent :=
  FsEvent.truncTmp :: (content.data.map FsEvent.appendTmp ++ [FsEvent.replaceCanonical])

/-- Model of `json.dumps(data, ensure_ascii=False, indent=2)` on the
history mapping (the exact layout is irrelevant to the claims; what matters
is that the complete mapping is serialized into one string). -/
def serializeRecord (r : HistoryRecord) : String :=
  "\x7b\"filename\": \"" ++ r.filename ++ "\", \"sha1\": \"" ++ r.sha1 ++
    "\", \"saved_at\": \"" ++ r.saved_at ++ "\"\x7d"

def serializeHistory (h : List (String × HistoryRecord)) : String :=
  "\x7b" ++ String.intercalate ", "
    (h.map (fun kv => "\"" ++ kv.1 ++ "\": " ++ serializeRecord kv.2)) ++ "\x7d"

/-- How far a `write_json_atomic` call got: completed, or interrupted by an
exception after `k` filesystem events (the source then tries to unlink the
temp file and swallows the exception, so the caller never sees it). -/
inductive PersistOutcome
  | ok
  | failAfter (k : Nat)
deriving Repr, DecidableEq

/-- Embedding of `write_json_atomic`: on success the whole event script
runs; on an exception the executed prefix is followed by the temp-file
unlink of the `except` branch.  The function is total — the source catches
every exception internally. -/
def write_json_atomic (o : PersistOutcome) (d : DiskState) (content : String) : DiskState :=
  match o with
  | PersistOutcome.ok => applyEvents d (writeScript content)
  | PersistOutcome.failAfter k =>
    applyEvents d ((writeScript content).take k ++ [FsEvent.unlinkTmp])

/-- Embedding of `Crawler.save_history_entry`: put the record into the
in-memory `history` dict, persist the complete mapping with
`write_json_atomic` (whose failure is logged and swallowed), then add the
URL to `processed_urls`.  `now` is the
`datetime.now(timezone.utc).isoformat()` timestamp. -/
def save_history_entry (now : String) (o : PersistOutcome) (st : RunState) (d : DiskState)
    (url filename h : String) : RunState × DiskState :=
  let st1 : RunState := { st with history := dictInsert url ⟨filename, h, now⟩ st.history }
  let d' := write_json_atomic o d (serializeHistory st1.history)
  let st2 : RunState := { st1 with processed := setAdd url st1.processed }
  (st2, d')

/-! ## Page processor: `Crawler._save_pdf_from_page` and
`Crawler._process_page_task`. -/

/-- Outcome of the `page.pdf(...)` export delegated to the rendering
collaborator: success, the dedicated `asyncio.wait_for` timeout, or any
other export error.  Both failures re-raise out of `_save_pdf_from_page`. -/
inductive PdfResult
  | ok
  | timeoutErr
  | exportErr
deriving Repr, DecidableEq

/-- The external collaborators of one run, as pure oracles: the hrefs the
portal page shows in round `r` (`portalHrefs r`), the hrefs and title each
child page shows, the outcome of each page's PDF export and history
persist, the robots fetch per origin, whether `browser.new_page()`
succeeds, the URL fingerprint (`hashlib.sha1(...).hexdigest()`), and the
timestamp. -/
structure PageEnv where
  portalHrefs : Nat → List String
  pageLinks : String → List String
  pageTitle : String → String
  pdfResult : String → PdfResult
  persist : String → PersistOutcome
  fetchRobots : String → RobotsFetchResult
  newPageOk : String → Bool
  urlHash : String → String
  now : String

/-- Embedding of `Crawler._save_pdf_from_page`: build the deterministic
filename from the sanitized title (`max_len=50`) and the URL hash, attempt
the export, and only on success run `save_history_entry`.  An export
timeout or error raises to the caller (`Except.error`), leaving every piece
of state untouched.  (`page.title()` failures are already folded into the
collaborator's `pageTitle`, matching the `except: title = ""` in the
source.) -/
def save_pdf_from_page (env : PageEnv) (st : RunState) (d : DiskState) (url : String) :
    Except String (RunState × DiskState × String) :=
  let fnameHead := sanitize_filename (env.pageTitle url) 50
  let h := env.urlHash url
  let filename := fnameHead ++ "_" ++ h ++ ".pdf"
  match env.pdfResult url with
  | PdfResult.ok =>
    let p := save_history_entry env.now (env.persist url) st d url filename h
    Except.ok (p.1, p.2, filename)
  | PdfResult.timeoutErr => Except.error "PDF generation timed out"
  | PdfResult.exportErr => Except.error "Failed to save PDF"

/-- The full mutable state of one run: the in-memory run state, the history
file on disk, and the robots cache. -/
structure CrawlState where
  runSt : RunState
  disk : DiskState
  robots : List (String × RobotFileParser)

/-- Embedding of `Crawler._process_page_task`: consult robots (updating the
per-origin cache); open a new page (a `new_page` failure raises — the
task's exception is later skipped by `asyncio.gather(...,
return_exceptions=True)`, so it contributes no links and no state change
beyond the robots cache); attempt the PDF save, swallowing its failure
("skipping record"); and extract next-level links only when
`depth < max_depth`.  The source's `try/except` around the save is embedded
by continuing with the recorded state on `Except.ok` and the entry state on
`Except.error`; the common `if depth < max_depth` tail is written in each
branch. -/
def process_page_task (c : Crawler) (env : PageEnv) (s : CrawlState) (url : String)
    (depth : Nat) : CrawlState × List String :=
  if (can_fetch_robots c.obey_robots env.fetchRobots s.robots url).2 = false then
    ({ s with robots := (can_fetch_robots c.obey_robots env.fetchRobots s.robots url).1 }, [])
  else if env.newPageOk url = false then
    ({ s with robots := (can_fetch_robots c.obey_robots env.fetchRobots s.robots url).1 }, [])
  else
    match save_pdf_from_page env s.runSt s.disk url with
    | Except.ok p =>
      if depth < c.max_depth.toNat then
        ({ runSt := (extract_links_from_page c.allowlist p.1 (env.pageLinks url)).1,
           disk := p.2.1,
           robots := (can_fetch_robots c.obey_robots env.fetchRobots s.robots url).1 },
          (extract_links_from_page c.allowlist p.1 (env.pageLinks url)).2)
      else
        ({ runSt := p.1, disk := p.2.1,
           robots := (can_fetch_robots c.obey_robots env.fetchRobots s.robots url).1 }, [])
    | Except.error _ =>
      if depth < c.max_depth.toNat then
        ({ runSt := (extract_links_from_page c.allowlist s.runSt (env.pageLinks url)).1,
           disk := s.disk,
           robots := (can_fetch_robots c.obey_robots env.fetchRobots s.robots url).1 },
          (extract_links_from_page c.allowlist s.runSt (env.pageLinks url)).2)
      else
        ({ runSt := s.runSt, disk := s.disk,
           robots := (can_fetch_robots c.obey_robots env.fetchRobots s.robots url).1 }, [])

/-- Embedding of the per-level dispatch in `Crawler.run`: every URL of the
current level goes through `_process_page_task` and the returned sub-link
lists are concatenated into the next level.  Under the source's cooperative
single-threaded scheduling every shared-state update is atomic between
suspension points; the model serializes the tasks in dispatch order (the
proved invariants do not depend on the completion order). -/
def runLevel (c : Crawler) (env : PageEnv) : CrawlState → List String → Nat →
    CrawlState × List String
  | s, [], _ => (s, [])
  | s, u :: rest, depth =>
    let p := process_page_task c env s u depth
    let q := runLevel c env p.1 rest depth
    (q.1, p.2 ++ q.2)

/-- Embedding of the inner BFS loop of `Crawler.run` (`while current_level
and current_depth <= self.max_depth`): process the whole level, make the
aggregated sub-links the next level, increment the depth.  The result also
records every `(url, depth)` pair dispatched to the page processor.  `fuel`
bounds the iterations; the wrapper `bfs_levels` passes `max_depth + 1`,
which the loop guard makes sufficient, so the fuel-exhausted branch is
never reached from the wrapper. -/
def bfs_go (c : Crawler) (env : PageEnv) : Nat → CrawlState → List String → Nat →
    CrawlState × List (String × Nat)
  | 0, s, _, _ => (s, [])
  | Nat.succ fuel, s, level, depth =>
    if level = [] ∨ c.max_depth.toNat < depth then (s, [])
    else
      let p := runLevel c env s level depth
      let q := bfs_go c env fuel p.1 p.2 (depth + 1)
      (q.1, level.map (fun u => (u, depth)) ++ q.2)

def bfs_levels (c : Crawler) (env : PageEnv) (s : CrawlState) (level : List String)
    (depth : Nat) : CrawlState × List (String × Nat) :=
  bfs_go c env (c.max_depth.toNat + 1) s level depth

/-- Embedding of the outer portal loop of `Crawler.run`, restricted to the
rounds in which the portal extraction finds links: round `r` re-extracts
the portal's hrefs (`portalHrefs r`) through the shared filter and runs the
BFS levels from depth 1.  The refresh / consecutive-no-new bookkeeping of
the empty rounds is modelled by `portal_loop_empty`. -/
def portal_rounds (c : Crawler) (env : PageEnv) : Nat → Nat → CrawlState →
    CrawlState × List (String × Nat)
  | 0, _, s => (s, [])
  | Nat.succ n, r, s =>
    let e := extract_links_from_page c.allowlist s.runSt (env.portalHrefs r)
    let p := bfs_levels c env { s with runSt := e.1 } e.2 1
    let q := portal_rounds c env n (r + 1) p.1
    (q.1, p.2 ++ q.2)

/-! ## Reveal driver (`Crawler._refresh_page`) and the empty-extraction
loop of `Crawler.run`. -/

/-- The clickable capabilities of the portal page that `_refresh_page`
probes: whether any next-page style control (one of `NEXT_PAGE_TEXTS` or
`a[rel="next"]`) can be clicked, and likewise for the load-more controls
(`LOAD_MORE_TEXTS`). -/
structure PortalControls where
  hasNext : Bool
  hasLoadMore : Bool
deriving Repr, DecidableEq

/-- Embedding of `Crawler._refresh_page`: after the common scroll-to-bottom,
`pagination` reports success iff some next-page control was clicked,
`pull` iff some load-more control was clicked, and mode `none` takes the
`else` branch that returns `True` unconditionally ("scrolling is considered
a success"). -/
def refresh_page (m : RefreshMode) (pg : PortalControls) : Bool :=
  match m with
  | RefreshMode.pagination => pg.hasNext
  | RefreshMode.pull => pg.hasLoadMore
  | RefreshMode.noneMode => true

/-- Embedding of the outer `while True` loop of `Crawler.run`, specialized
to a portal whose link extraction always yields zero links (the
bounded-termination scenario): each iteration extracts nothing, so it calls
`_refresh_page`; on success `consecutive_no_new` is reset to 0 and the loop
continues; on failure the counter is incremented and the loop breaks once
`consecutive_no_new >= no_new_limit`.  Returns the number of iterations
until the break, or `Option.none` when the loop is still running after
`fuel` iterations. -/
def portal_loop_empty (m : RefreshMode) (pg : PortalControls) (no_new_limit : Nat) :
    Nat → Nat → Option Nat
  | 0, _ => Option.none
  | Nat.succ fuel, consecutive_no_new =>
    if refresh_page m pg then
      (portal_loop_empty m pg no_new_limit fuel 0).map (· + 1)
    else if no_new_limit ≤ consecutive_no_new + 1 then
      Option.some 1
    else
      (portal_loop_empty m pg no_new_limit fuel (consecutive_no_new + 1)).map (· + 1)

/-! ## Invariant used in the politeness proof, and concrete instances used
by the witnesses. -/

/-- Invariant tying a waiter's phase to the `last` value it observed: a
sleeping waiter's wake time is exactly `observedLast + delay`, and a
finished waiter released no earlier than `observedLast + delay`. -/
def phaseInv (delay : ℤ) : WaiterPhase → Prop
  | WaiterPhase.ready => True
  | WaiterPhase.sleeping l w => w = l + delay
  | WaiterPhase.finished l r => l + delay ≤ r

/-- A concrete configuration (built through `Crawler.init`, as `main` does)
used by the witnesses: allow-list `["https://x.test/a/"]`, `max_depth = 2`,
robots disabled. -/
def cW : Crawler :=
  Crawler.init "https://x.test/#top" 2 2 5000 0 (Option.some "pull") 3
    ["https://x.test/a/"] false

/-- A concrete collaborator environment for the witnesses: the portal shows
one allowed and one disallowed link, every child page shows one allowed
(fragmented) and one disallowed link, every export and persist succeeds. -/
def envW : PageEnv :=
  { portalHrefs := fun _ => ["https://x.test/a/1", "https://x.test/b/1"]
    pageLinks := fun _ => ["https://x.test/a/2#frag", "https://x.test/b/2"]
    pageTitle := fun _ => "A:Title"
    pdfResult := fun _ => PdfResult.ok
    persist := fun _ => PersistOutcome.ok
    fetchRobots := fun _ => RobotsFetchResult.raised
    newPageOk := fun _ => true
    urlHash := fun u => u
    now := "2026-01-01T00:00:00+00:00" }

/-- Like `envW` but every PDF export fails. -/
def envFailW : PageEnv :=
  { envW with pdfResult := fun _ => PdfResult.exportErr }

/-- Initial run state for the witnesses: empty history, one URL already
processed in a previous run, the portal already marked seen. -/
def rs0W : RunState :=
  { history := [], processed := ["https://old.test/done"], seen := ["https://x.test/"] }

def dk0W : DiskState := { canonical := Option.none, tmp := Option.none }

def st0W : CrawlState := { runSt := rs0W, disk := dk0W, robots := [] }

/-- The robots fetch that always raises (network failure), for the C7
evaluation. -/
def failFetch : String → RobotsFetchResult := fun _ => RobotsFetchResult.raised

/-- Initial state of the politeness race: clock and last-fetch time both 0,
two tasks about to call `domain_delay_wait` for the same domain. -/
def s0race : TwoWaiters :=
  { st := { clock := 0, last := 0 }, a := WaiterPhase.ready, b := WaiterPhase.ready }

/-- The interleaving refuting the race-freedom claim (delay 5): both tasks
run their entry segment at time 0 (both read `last = 0` and suspend), then
both wake at time 5 and release. -/
def schedRace : List (Bool × ℤ) := [(true, 0), (false, 0), (true, 5), (false, 5)]

/-! # Theorems -/

/-- In mode `none`, `_refresh_page` reports success on every empty cycle,
so the loop resets `consecutive_no_new` each time and never breaks,
whatever the fuel and starting counter. -/
lemma portal_loop_empty_noneMode (pg : PortalControls) (limit : Nat) :
    ∀ fuel counter,
      portal_loop_empty RefreshMode.noneMode pg limit fuel counter = Option.none := by
  intro fuel
  induction fuel with
  | zero => intro counter; rfl
  | succ n ih => intro counter; simp [portal_loop_empty, refresh_page, ih]

/-- When `_refresh_page` reports failure on every cycle, the loop breaks
after exactly `limit - counter` further iterations. -/
lemma portal_loop_empty_exact (m : RefreshMode) (pg : PortalControls) (limit : Nat)
    (h : refresh_page m pg = false) :
    ∀ fuel counter, counter < limit → limit ≤ counter + fuel →
      portal_loop_empty m pg limit fuel counter = Option.some (limit - counter) := by
  intro fuel
  induction fuel with
  | zero => intro counter hc hf; omega
  | succ n ih =>
    intro counter hc hf
    by_cases hl : limit ≤ counter + 1
    · have he : limit - counter = 1 := by omega
      simp [portal_loop_empty, h, hl, he]
    · have h1 : counter + 1 < limit := by omega
      have h2 : limit ≤ counter + 1 + n := by omega
      simp [portal_loop_empty, h, hl, ih (counter + 1) h1 h2]
      omega

/-- C1 counterexample: with `refresh_mode = none`, `no_new_limit = 2` and a
portal that never yields links, the run has not terminated after 50
empty-extraction cycles — the claim predicts termination after exactly 2.
`_refresh_page` returns `True` unconditionally in mode `none`, and the
scheduler resets `consecutive_no_new` to 0 whenever it returns `True`, so
the counter never reaches the bound. -/
theorem C1_counterexample :
    portal_loop_empty RefreshMode.noneMode ⟨false, false⟩ 2 50 0 = Option.none ∧
    portal_loop_empty RefreshMode.noneMode ⟨false, false⟩ 2 50 0 ≠ Option.some 2 := by
  refine ⟨portal_loop_empty_noneMode ⟨false, false⟩ 2 50 0, ?_⟩
  rw [portal_loop_empty_noneMode ⟨false, false⟩ 2 50 0]
  simp

/-- C1 (amended): with `refresh_mode = none` the reveal driver's
unconditional `True` resets the consecutive-no-new counter on every empty
cycle, so the outer loop never terminates through the `no_new_limit` bound;
the exactly-`no_new_limit` termination holds precisely in the
configurations where `_refresh_page` reports failure each cycle (e.g. mode
`pagination` or `pull` against a portal with no clickable candidates). -/
theorem C1_amended (m : RefreshMode) (pg : PortalControls) (limit fuel counter : Nat)
    (h : refresh_page m pg = false) (h1 : 1 ≤ limit) (h2 : limit ≤ fuel) :
    portal_loop_empty RefreshMode.noneMode pg limit fuel counter = Option.none ∧
    portal_loop_empty m pg limit fuel 0 = Option.some limit := by
  refine ⟨portal_loop_empty_noneMode pg limit fuel counter, ?_⟩
  have hx := portal_loop_empty_exact m pg limit h fuel 0 (by omega) (by omega)
  simpa using hx

/-- Witness for C1's amended theorem at `limit = 3`, `fuel = 5`. -/
theorem C1_witness :
    refresh_page RefreshMode.pagination ⟨false, false⟩ = false ∧ 1 ≤ 3 ∧ 3 ≤ 5 ∧
    portal_loop_empty RefreshMode.noneMode ⟨false, false⟩ 3 5 0 = Option.none ∧
    portal_loop_empty RefreshMode.pagination ⟨false, false⟩ 3 5 0 = Option.some 3 :=
  ⟨rfl, by decide, by decide,
    (C1_amended RefreshMode.pagination ⟨false, false⟩ 3 5 0 rfl (by decide) (by decide)).1,
    (C1_amended RefreshMode.pagination ⟨false, false⟩ 3 5 0 rfl (by decide) (by decide)).2⟩

/-- C10: `Crawler.__init__` clamps every numeric option instead of
rejecting it: whatever the configuration supplies (zero or negative values
included), the constructed crawler satisfies `concurrency ≥ 1`,
`max_depth ≥ 1`, `timeout_ms ≥ 1000`, `delay_s ≥ 0` and
`no_new_limit ≥ 1`. -/
theorem C10_config_clamped (start_url : String) (concurrency max_depth timeout_ms : Int)
    (delay_s : ℚ) (refresh_mode : Option String) (no_new_limit : Int)
    (allowlist : List String) (obey_robots : Bool) :
    1 ≤ (Crawler.init start_url concurrency max_depth timeout_ms delay_s refresh_mode
          no_new_limit allowlist obey_robots).concurrency ∧
    1 ≤ (Crawler.init start_url concurrency max_depth timeout_ms delay_s refresh_mode
          no_new_limit allowlist obey_robots).max_depth ∧
    1000 ≤ (Crawler.init start_url concurrency max_depth timeout_ms delay_s refresh_mode
          no_new_limit allowlist obey_robots).timeout_ms ∧
    0 ≤ (Crawler.init start_url concurrency max_depth timeout_ms delay_s refresh_mode
          no_new_limit allowlist obey_robots).delay_s ∧
    1 ≤ (Crawler.init start_url concurrency max_depth timeout_ms delay_s refresh_mode
          no_new_limit allowlist obey_robots).no_new_limit :=
  ⟨le_max_left 1 concurrency, le_max_left 1 max_depth, le_max_left 1000 timeout_ms,
    le_max_left 0 delay_s, le_max_left 1 no_new_limit⟩

/-! ## Atomic persistence lemmas (C5, C9) -/

lemma applyEvents_append (d : DiskState) (l1 l2 : List FsEvent) :
    applyEvents d (l1 ++ l2) = applyEvents (applyEvents d l1) l2 :=
  List.foldl_append _ _ _ _

lemma canonical_applyEvent_of_ne (d : DiskState) (e : FsEvent)
    (h : e ≠ FsEvent.replaceCanonical) : (applyEvent d e).canonical = d.canonical := by
  cases e with
  | truncTmp => rfl
  | appendTmp c => rfl
  | replaceCanonical => exact absurd rfl h
  | unlinkTmp => rfl

lemma canonical_applyEvents_of_no_replace (es : List FsEvent) :
    ∀ d : DiskState, FsEvent.replaceCanonical ∉ es →
      (applyEvents d es).canonical = d.canonical := by
  induction es with
  | nil => intro d _; rfl
  | cons e rest ih =>
    intro d hmem
    have h1 : e ≠ FsEvent.replaceCanonical := by
      intro he
      exact hmem (by rw [← he]; exact List.mem_cons_self e rest)
    have h2 : FsEvent.replaceCanonical ∉ rest := fun hm => hmem (List.mem_cons_of_mem e hm)
    calc (applyEvents d (e :: rest)).canonical
        = (applyEvents (applyEvent d e) rest).canonical := rfl
      _ = (applyEvent d e).canonical := ih (applyEvent d e) h2
      _ = d.canonical := canonical_applyEvent_of_ne d e h1

lemma tmp_after_appends (cs : List Char) :
    ∀ (x : Option (List Char)) (s : List Char),
      applyEvents { canonical := x, tmp := Option.some s } (cs.map FsEvent.appendTmp)
        = { canonical := x, tmp := Option.some (s ++ cs) } := by
  induction cs with
  | nil => intro x s; simp [applyEvents]
  | cons c rest ih =>
    intro x s
    have hstep : applyEvents { canonical := x, tmp := Option.some s }
        ((c :: rest).map FsEvent.appendTmp)
        = applyEvents { canonical := x, tmp := Option.some (s ++ [c]) }
            (rest.map FsEvent.appendTmp) := rfl
    rw [hstep, ih x (s ++ [c])]
    simp

/-- An uninterrupted `write_json_atomic` leaves exactly the serialized
content at the canonical path and removes the temp file. -/
lemma writeScript_complete (d : DiskState) (content : String) :
    applyEvents d (writeScript content)
      = { canonical := Option.some content.data, tmp := Option.none } := by
  have h1 : applyEvents d (writeScript content)
      = applyEvents { canonical := d.canonical, tmp := Option.some [] }
          (content.data.map FsEvent.appendTmp ++ [FsEvent.replaceCanonical]) := rfl
  rw [h1, applyEvents_append, tmp_after_appends content.data d.canonical []]
  simp [applyEvents, applyEvent]

lemma replace_not_mem_init (content : String) :
    FsEvent.replaceCanonical ∉
      FsEvent.truncTmp :: content.data.map FsEvent.appendTmp := by
  simp

/-- A prefix of the write script is either the whole script or contains no
`os.replace` event. -/
lemma take_writeScript (content : String) (k : Nat) :
    (writeScript content).take k = writeScript content ∨
      FsEvent.replaceCanonical ∉ (writeScript content).take k := by
  by_cases hk : (writeScript content).length ≤ k
  · exact Or.inl (List.take_of_length_le hk)
  · right
    have hinit : writeScript content
        = (FsEvent.truncTmp :: content.data.map FsEvent.appendTmp)
          ++ [FsEvent.replaceCanonical] := rfl
    have hlen : k ≤ (FsEvent.truncTmp :: content.data.map FsEvent.appendTmp).length := by
      have hL : (writeScript content).length = content.data.length + 2 := by
        simp [writeScript]
      rw [hL] at hk
      simp only [List.length_cons, List.length_map]
      omega
    intro hmem
    rw [hinit, List.take_append_of_le_length hlen] at hmem
    exact replace_not_mem_init content (List.take_subset k _ hmem)

/-- Whatever the outcome of a `write_json_atomic` call, the canonical file
holds either its previous content or the complete new content. -/
lemma write_json_atomic_canonical (o : PersistOutcome) (d : DiskState) (content : String) :
    (write_json_atomic o d content).canonical = d.canonical ∨
      (write_json_atomic o d content).canonical = Option.some content.data := by
  cases o with
  | ok =>
    right
    simp [write_json_atomic, writeScript_complete]
  | failAfter k =>
    have h0 : (write_json_atomic (PersistOutcome.failAfter k) d content).canonical
        = (applyEvents d ((writeScript content).take k)).canonical := by
      simp [write_json_atomic, applyEvents_append, applyEvents, applyEvent]
    rw [h0]
    rcases take_writeScript content k with h | h
    · right; rw [h, writeScript_complete]
    · left; exact canonical_applyEvents_of_no_replace _ d h

/-- C5: every persist of the History Store is atomic with respect to
readers: `record` serializes the complete new mapping, writes it to the
temp path and atomically renames it over the canonical path, so after an
interruption at any point (any prefix of the filesystem events, with or
without the cleanup unlink) the canonical file is either the previous
content or the complete new serialization — never a truncated mix. -/
theorem C5_atomic_persistence (d : DiskState) (m : List (String × HistoryRecord)) :
    (∀ k, (applyEvents d ((writeScript (serializeHistory m)).take k)).canonical = d.canonical ∨
      (applyEvents d ((writeScript (serializeHistory m)).take k)).canonical
        = Option.some (serializeHistory m).data) ∧
    (∀ o, (write_json_atomic o d (serializeHistory m)).canonical = d.canonical ∨
      (write_json_atomic o d (serializeHistory m)).canonical
        = Option.some (serializeHistory m).data) := by
  constructor
  · intro k
    rcases take_writeScript (serializeHistory m) k with h | h
    · right; rw [h, writeScript_complete]
    · left; exact canonical_applyEvents_of_no_replace _ d h
  · intro o
    exact write_json_atomic_canonical o d (serializeHistory m)

lemma mem_setAdd_self (x : String) (l : List String) : x ∈ setAdd x l := by
  by_cases h : x ∈ l <;> simp [setAdd, h]

lemma mem_setAdd_of_mem {u : String} (x : String) {l : List String} (h : u ∈ l) :
    u ∈ setAdd x l := by
  by_cases hx : x ∈ l <;> simp [setAdd, hx, h]

lemma mem_keys_dictInsert (url : String) (v : HistoryRecord)
    (hist : List (String × HistoryRecord)) :
    url ∈ (dictInsert url v hist).map Prod.fst := by
  induction hist with
  | nil => simp [dictInsert]
  | cons kv rest ih =>
    by_cases h : kv.1 = url <;> simp [dictInsert, h, ih]

/-- C9: a failed durable write of a new History entry is non-fatal to the
run and the in-memory state still advances: whatever the persist outcome,
afterwards the URL is in the in-memory history mapping and in
`processed_urls`, while the canonical file holds either its previous
content or the complete new serialization. -/
theorem C9_persist_failure_nonfatal (now : String) (o : PersistOutcome) (st : RunState)
    (d : DiskState) (url filename h : String) :
    url ∈ (save_history_entry now o st d url filename h).1.processed ∧
    url ∈ (save_history_entry now o st d url filename h).1.history.map Prod.fst ∧
    ((save_history_entry now o st d url filename h).2.canonical = d.canonical ∨
      (save_history_entry now o st d url filename h).2.canonical
        = Option.some (serializeHistory (dictInsert url ⟨filename, h, now⟩ st.history)).data) :=
  ⟨mem_setAdd_self url _, mem_keys_dictInsert url _ _, write_json_atomic_canonical o _ _⟩

/-- C7 (code bug): with `obey_robots` enabled and an origin whose
robots.txt fetch raises, the first query of that origin is answered `True`
("assuming allowed"), but the never-read parser cached for the origin makes
`can_fetch` answer `False` for every subsequent query of the same origin:
the fail-open policy does not survive the per-origin cache. -/
theorem C7_robots_cache_code_bug :
    (can_fetch_robots true failFetch [] "https://ex.test/p1").2 = true ∧
    (can_fetch_robots true failFetch
        (can_fetch_robots true failFetch [] "https://ex.test/p1").1 "https://ex.test/p2").2
      = false := by
  constructor <;> rfl

/-! ## Politeness race (C2) -/

/-- One atomic segment of `domain_delay_wait` preserves the phase
invariant: a waiter that suspends will wake exactly at
`observedLast + delay`, and a waiter that finishes releases no earlier
than `observedLast + delay`. -/
lemma waiterStep_inv (delay : ℤ) (s : DomainClock) (ph : WaiterPhase)
    (hinv : phaseInv delay ph) (hdue : phaseReadyOrDue ph s.clock = true) :
    phaseInv delay (waiterStep delay s ph).2 := by
  cases ph with
  | ready =>
    by_cases hlt : s.clock - s.last < delay
    · simp [waiterStep, hlt, phaseInv]
      ring
    · simp [waiterStep, hlt, phaseInv]
      linarith [not_lt.mp hlt]
  | sleeping l w =>
    simp only [phaseInv] at hinv
    simp only [phaseReadyOrDue, decide_eq_true_eq] at hdue
    simp only [waiterStep, phaseInv]
    rw [← hinv]
    exact hdue
  | finished l r =>
    simp [phaseReadyOrDue] at hdue

/-- Every waiter of a validly scheduled execution keeps the phase
invariant. -/
lemma execSched_inv (delay : ℤ) (sched : List (Bool × ℤ)) :
    ∀ s : TwoWaiters, validSched delay s sched = true →
      phaseInv delay s.a → phaseInv delay s.b →
      phaseInv delay (execSched delay s sched).a ∧
        phaseInv delay (execSched delay s sched).b := by
  induction sched with
  | nil => intro s _ ha hb; exact ⟨ha, hb⟩
  | cons wt rest ih =>
    intro s hv ha hb
    simp only [validSched, Bool.and_eq_true, decide_eq_true_eq] at hv
    obtain ⟨⟨hclock, hdue⟩, hrest⟩ := hv
    have hstep : phaseInv delay (schedStep delay s wt.1 wt.2).a ∧
        phaseInv delay (schedStep delay s wt.1 wt.2).b := by
      cases hw : wt.1 with
      | true =>
        rw [hw] at hdue
        exact ⟨waiterStep_inv delay { s.st with clock := wt.2 } s.a ha hdue, hb⟩
      | false =>
        rw [hw] at hdue
        exact ⟨ha, waiterStep_inv delay { s.st with clock := wt.2 } s.b hb hdue⟩
    exact ih _ hrest hstep.1 hstep.2

/-- C2 (amended): the politeness wait is not race-free as claimed — the
counterexample below exhibits two waiters of the same domain both
observing a free turn across the sleep suspension.  What does hold: each
waiter individually releases no earlier than `delay_s` after the
last-fetch time it observed on entry, and on the no-sleep path the check
and the last-fetch-time update do form a single atomic step. -/
theorem C2_amended (delay : ℤ) (cl : DomainClock) (sched : List (Bool × ℤ))
    (hv : validSched delay
      { st := cl, a := WaiterPhase.ready, b := WaiterPhase.ready } sched = true) :
    (∀ l r, (execSched delay
        { st := cl, a := WaiterPhase.ready, b := WaiterPhase.ready } sched).a
        = WaiterPhase.finished l r → l + delay ≤ r) ∧
    (∀ l r, (execSched delay
        { st := cl, a := WaiterPhase.ready, b := WaiterPhase.ready } sched).b
        = WaiterPhase.finished l r → l + delay ≤ r) ∧
    (∀ s : DomainClock, delay ≤ s.clock - s.last →
      waiterStep delay s WaiterPhase.ready
        = ({ s with last := s.clock }, WaiterPhase.finished s.last s.clock)) := by
  have hinv := execSched_inv delay sched
    { st := cl, a := WaiterPhase.ready, b := WaiterPhase.ready } hv trivial trivial
  refine ⟨?_, ?_, ?_⟩
  · intro l r hfin
    have h1 := hinv.1
    rw [hfin] at h1
    simpa [phaseInv] using h1
  · intro l r hfin
    have h1 := hinv.2
    rw [hfin] at h1
    simpa [phaseInv] using h1
  · intro s hs
    have hnl : ¬ (s.clock - s.last < delay) := not_lt.mpr (by linarith)
    simp [waiterStep, hnl]

/-- C2 counterexample: with `delay_s = 5`, both tasks read the same
last-fetch time 0 at clock 0, both suspend (the `await asyncio.sleep` sits
between the check and the update), both wake at clock 5 and both release at
clock 5 — a valid cooperative schedule in which the two releases are 0 < 5
apart, refuting the claimed atomic check-and-update and the ≥ `delay_s`
release separation. -/
theorem C2_counterexample :
    validSched 5 s0race schedRace = true ∧
    releaseOf (execSched 5 s0race schedRace).a = Option.some 5 ∧
    releaseOf (execSched 5 s0race schedRace).b = Option.some 5 ∧
    ¬ ((5 : ℤ) ≤ 5 - 5) := by
  refine ⟨by decide, by decide, by decide, by norm_num⟩

/-- Witness for C2's amended theorem: a single waiter entering at clock 10
with last-fetch time 0 takes the atomic fast path and releases at 10 ≥
0 + 5. -/
theorem C2_witness :
    validSched 5
      { st := { clock := 10, last := 0 }, a := WaiterPhase.ready, b := WaiterPhase.ready }
      [(true, 10)] = true ∧
    (execSched 5
      { st := { clock := 10, last := 0 }, a := WaiterPhase.ready, b := WaiterPhase.ready }
      [(true, 10)]).a = WaiterPhase.finished 0 10 ∧
    (0 : ℤ) + 5 ≤ 10 :=
  ⟨by decide, by decide,
    (C2_amended 5 { clock := 10, last := 0 } [(true, 10)] (by decide)).1 0 10 (by decide)⟩

/-! ## Link filter and BFS invariants (C3, C4, C6, C8) -/

lemma mem_setAdd_elim {u x : String} {l : List String} (h : u ∈ setAdd x l) :
    u ∈ l ∨ u = x := by
  by_cases hx : x ∈ l
  · rw [setAdd, if_pos hx] at h
    exact Or.inl h
  · rw [setAdd, if_neg hx] at h
    rcases List.mem_cons.mp h with h1 | h1
    · exact Or.inr h1
    · exact Or.inl h1

lemma not_mem_of_not_mem_setAdd {u x : String} {l : List String}
    (h : u ∉ setAdd x l) : u ∉ l :=
  fun hm => h (mem_setAdd_of_mem x hm)

/-- The filter loop leaves `processed_urls` and the history untouched, and
grows `seen_urls` by exactly the emitted links. -/
lemma extract_state (ps : List String) (hs : List String) :
    ∀ st : RunState,
      (extract_links_from_page ps st hs).1.processed = st.processed ∧
      (extract_links_from_page ps st hs).1.history = st.history ∧
      (extract_links_from_page ps st hs).1.seen
        = (extract_links_from_page ps st hs).2.reverse ++ st.seen := by
  induction hs with
  | nil => intro st; exact ⟨rfl, rfl, rfl⟩
  | cons h rest ih =>
    intro st
    by_cases h0 : h = ""
    · simpa [extract_links_from_page, h0] using ih st
    · by_cases h1 : ps ≠ [] ∧ matchesAllowlist ps (normalize_url h) = false
      · simpa [extract_links_from_page, h0, h1] using ih st
      · by_cases h2 : normalize_url h ∈ st.seen
        · simpa [extract_links_from_page, h0, h1, h2] using ih st
        · by_cases h3 : normalize_url h ∈ st.processed
          · simpa [extract_links_from_page, h0, h1, h2, h3] using ih st
          · have ihs := ih { st with seen := normalize_url h :: st.seen }
            simp only [extract_links_from_page, h0, h1, h2, h3, if_false, if_neg,
              not_false_iff, List.reverse_cons, List.append_assoc]
            refine ⟨ihs.1, ihs.2.1, ?_⟩
            rw [ihs.2.2]
            simp

/-- The emitted links are pairwise distinct, and each was neither seen nor
processed before the call and passes the allow-list. -/
lemma extract_out (ps : List String) (hs : List String) :
    ∀ st : RunState,
      (extract_links_from_page ps st hs).2.Nodup ∧
      ∀ u ∈ (extract_links_from_page ps st hs).2,
        u ∉ st.seen ∧ u ∉ st.processed ∧ matchesAllowlist ps u = true := by
  induction hs with
  | nil => intro st; simp [extract_links_from_page]
  | cons h rest ih =>
    intro st
    by_cases h0 : h = ""
    · simpa [extract_links_from_page, h0] using ih st
    · by_cases h1 : ps ≠ [] ∧ matchesAllowlist ps (normalize_url h) = false
      · simpa [extract_links_from_page, h0, h1] using ih st
      · by_cases h2 : normalize_url h ∈ st.seen
        · simpa [extract_links_from_page, h0, h1, h2] using ih st
        · by_cases h3 : normalize_url h ∈ st.processed
          · simpa [extract_links_from_page, h0, h1, h2, h3] using ih st
          · have ihs := ih { st with seen := normalize_url h :: st.seen }
            have hall : matchesAllowlist ps (normalize_url h) = true := by
              rcases not_and_or.mp h1 with hps | hm
              · have hempty : ps = [] := not_not.mp hps
                simp [matchesAllowlist, hempty]
              · simpa using hm
            simp only [extract_links_from_page, h0, h1, h2, h3, if_false, if_neg,
              not_false_iff]
            constructor
            · refine List.nodup_cons.mpr ⟨?_, ihs.1⟩
              intro hmem
              exact (ihs.2 _ hmem).1 (List.mem_cons_self _ _)
            · intro u hu
              rcases List.mem_cons.mp hu with rfl | hu'
              · exact ⟨h2, h3, hall⟩
              · obtain ⟨hs1, hs2, hs3⟩ := ihs.2 u hu'
                exact ⟨fun hmem => hs1 (List.mem_cons_of_mem _ hmem), hs2, hs3⟩

/-- When the export succeeds, `_save_pdf_from_page` returns the state
produced by `save_history_entry` for the deterministic filename. -/
lemma save_pdf_ok_state (env : PageEnv) (st : RunState) (d : DiskState) (url : String)
    (p : RunState × DiskState × String) (h : save_pdf_from_page env st d url = Except.ok p) :
    p.1.seen = st.seen ∧
    p.1.history = dictInsert url
      ⟨sanitize_filename (env.pageTitle url) 50 ++ "_" ++ env.urlHash url ++ ".pdf",
        env.urlHash url, env.now⟩ st.history ∧
    p.1.processed = setAdd url st.processed := by
  simp only [save_pdf_from_page] at h
  split at h
  · injection h with h2
    rw [← h2]
    exact ⟨rfl, rfl, rfl⟩
  · exact absurd h (by simp)
  · exact absurd h (by simp)

/-- What `_process_page_task` does to the run state and what it emits:
`seen_urls` grows by exactly the emitted links; `processed_urls` grows by
at most the task's own URL; the emitted links are distinct, were neither
seen nor processed on entry and pass the allow-list; and nothing is
emitted at depth ≥ `max_depth`. -/
lemma process_page_task_spec (c : Crawler) (env : PageEnv) (s : CrawlState) (url : String)
    (depth : Nat) :
    (process_page_task c env s url depth).1.runSt.seen
        = (process_page_task c env s url depth).2.reverse ++ s.runSt.seen ∧
    (∀ u, u ∈ s.runSt.processed → u ∈ (process_page_task c env s url depth).1.runSt.processed) ∧
    (∀ u, u ∈ (process_page_task c env s url depth).1.runSt.processed →
        u ∈ s.runSt.processed ∨ u = url) ∧
    (process_page_task c env s url depth).2.Nodup ∧
    (∀ u ∈ (process_page_task c env s url depth).2,
        u ∉ s.runSt.seen ∧ u ∉ s.runSt.processed ∧ matchesAllowlist c.allowlist u = true) ∧
    (c.max_depth.toNat ≤ depth → (process_page_task c env s url depth).2 = []) := by
  unfold process_page_task
  split
  · exact ⟨by simp, fun u hu => hu, fun u hu => Or.inl hu, List.nodup_nil, by simp,
      fun _ => rfl⟩
  · split
    · exact ⟨by simp, fun u hu => hu, fun u hu => Or.inl hu, List.nodup_nil, by simp,
        fun _ => rfl⟩
    · split
      next p hsv =>
        obtain ⟨hps, hph, hpp⟩ := save_pdf_ok_state env _ _ url p hsv
        split
        next hD =>
          have hx := extract_state c.allowlist (env.pageLinks url) p.1
          have ho := extract_out c.allowlist (env.pageLinks url) p.1
          refine ⟨?_, ?_, ?_, ho.1, ?_, ?_⟩
          · rw [hx.2.2, hps]
          · intro u hu
            rw [hx.1, hpp]
            exact mem_setAdd_of_mem url hu
          · intro u hu
            rw [hx.1, hpp] at hu
            exact mem_setAdd_elim hu
          · intro u hu
            obtain ⟨hu1, hu2, hu3⟩ := ho.2 u hu
            rw [hps] at hu1
            rw [hpp] at hu2
            exact ⟨hu1, not_mem_of_not_mem_setAdd hu2, hu3⟩
          · intro hle
            omega
        next hD =>
          refine ⟨by rw [hps]; simp, ?_, ?_, List.nodup_nil, by simp, fun _ => rfl⟩
          · intro u hu
            rw [hpp]
            exact mem_setAdd_of_mem url hu
          · intro u hu
            rw [hpp] at hu
            exact mem_setAdd_elim hu
      next e hsv =>
        split
        next hD =>
          have hx := extract_state c.allowlist (env.pageLinks url) s.runSt
          have ho := extract_out c.allowlist (env.pageLinks url) s.runSt
          refine ⟨hx.2.2, ?_, ?_, ho.1, ho.2, ?_⟩
          · intro u hu
            rw [hx.1]
            exact hu
          · intro u hu
            rw [hx.1] at hu
            exact Or.inl hu
          · intro hle
            omega
        next hD =>
          exact ⟨by simp, fun u hu => hu, fun u hu => Or.inl hu, List.nodup_nil, by simp,
            fun _ => rfl⟩

/-- What one level's dispatch does: `seen_urls` grows by exactly the
aggregated sub-links; `processed_urls` grows by at most the level's URLs;
the aggregated sub-links are distinct, were neither seen nor processed
when the level started, pass the allow-list; and a level at depth ≥
`max_depth` aggregates nothing. -/
lemma runLevel_spec (c : Crawler) (env : PageEnv) (depth : Nat) :
    ∀ (level : List String) (s : CrawlState),
      (runLevel c env s level depth).1.runSt.seen
          = (runLevel c env s level depth).2.reverse ++ s.runSt.seen ∧
      (∀ u, u ∈ s.runSt.processed → u ∈ (runLevel c env s level depth).1.runSt.processed) ∧
      (∀ u, u ∈ (runLevel c env s level depth).1.runSt.processed →
          u ∈ s.runSt.processed ∨ u ∈ level) ∧
      (runLevel c env s level depth).2.Nodup ∧
      (∀ u ∈ (runLevel c env s level depth).2,
          u ∉ s.runSt.seen ∧ u ∉ s.runSt.processed ∧ matchesAllowlist c.allowlist u = true) ∧
      (c.max_depth.toNat ≤ depth → (runLevel c env s level depth).2 = []) := by
  intro level
  induction level with
  | nil =>
    intro s
    exact ⟨by simp [runLevel], fun u hu => hu, fun u hu => Or.inl hu, by simp [runLevel],
      by simp [runLevel], fun _ => by simp [runLevel]⟩
  | cons v rest ih =>
    intro s
    obtain ⟨t1, t2, t3, t4, t5, t6⟩ := process_page_task_spec c env s v depth
    obtain ⟨r1, r2, r3, r4, r5, r6⟩ := ih (process_page_task c env s v depth).1
    simp only [runLevel]
    have hsub1 : ∀ u, u ∈ s.runSt.seen →
        u ∈ (process_page_task c env s v depth).1.runSt.seen := by
      intro u hu
      rw [t1]
      exact List.mem_append_right _ hu
    have hmem2 : ∀ u, u ∈ (process_page_task c env s v depth).2 →
        u ∈ (process_page_task c env s v depth).1.runSt.seen := by
      intro u hu
      rw [t1]
      exact List.mem_append_left _ (List.mem_reverse.mpr hu)
    refine ⟨?_, ?_, ?_, ?_, ?_, ?_⟩
    · rw [r1, t1, List.reverse_append, List.append_assoc]
    · intro u hu
      exact r2 u (t2 u hu)
    · intro u hu
      rcases r3 u hu with h1 | h1
      · rcases t3 u h1 with h2 | h2
        · exact Or.inl h2
        · exact Or.inr (by rw [h2]; exact List.mem_cons_self v rest)
      · exact Or.inr (List.mem_cons_of_mem v h1)
    · refine List.nodup_append.mpr ⟨t4, r4, ?_⟩
      intro a ha hb
      exact (r5 a hb).1 (hmem2 a ha)
    · intro u hu
      rcases List.mem_append.mp hu with h1 | h1
      · exact t5 u h1
      · obtain ⟨q1, q2, q3⟩ := r5 u h1
        exact ⟨fun hm => q1 (hsub1 u hm), fun hm => q2 (t2 u hm), q3⟩
    · intro hle
      rw [t6 hle, r6 hle]
      rfl

/-- Invariants of the BFS level loop: `seen_urls` and `processed_urls` only
grow; every dispatched pair lies between the entry depth and `max_depth`;
when the entry level is duplicate-free and already marked seen, the
dispatched URLs are pairwise distinct, each is the entry level's or was
unseen at entry, each ends up seen, and none was processed at entry (when
the entry level wasn't); every dispatched URL passes the allow-list when
the entry level does; and seen-Nodup is preserved. -/
lemma bfs_go_spec (c : Crawler) (env : PageEnv) :
    ∀ (fuel depth : Nat) (level : List String) (s : CrawlState),
      (∀ u, u ∈ s.runSt.seen → u ∈ (bfs_go c env fuel s level depth).1.runSt.seen) ∧
      (∀ u, u ∈ s.runSt.processed →
          u ∈ (bfs_go c env fuel s level depth).1.runSt.processed) ∧
      (∀ q ∈ (bfs_go c env fuel s level depth).2,
          depth ≤ q.2 ∧ q.2 ≤ c.max_depth.toNat) ∧
      (level.Nodup → (∀ u ∈ level, u ∈ s.runSt.seen) →
        (((bfs_go c env fuel s level depth).2.map Prod.fst).Nodup ∧
          (∀ q ∈ (bfs_go c env fuel s level depth).2,
            (q.1 ∈ level ∨ q.1 ∉ s.runSt.seen) ∧
              q.1 ∈ (bfs_go c env fuel s level depth).1.runSt.seen) ∧
          ((∀ u ∈ level, u ∉ s.runSt.processed) →
            ∀ q ∈ (bfs_go c env fuel s level depth).2, q.1 ∉ s.runSt.processed))) ∧
      ((∀ u ∈ level, matchesAllowlist c.allowlist u = true) →
        ∀ q ∈ (bfs_go c env fuel s level depth).2,
          matchesAllowlist c.allowlist q.1 = true) ∧
      (s.runSt.seen.Nodup → (bfs_go c env fuel s level depth).1.runSt.seen.Nodup) := by
  intro fuel
  induction fuel with
  | zero =>
    intro depth level s
    exact ⟨fun u hu => hu, fun u hu => hu, by simp [bfs_go],
      fun _ _ => ⟨by simp [bfs_go], by simp [bfs_go], fun _ => by simp [bfs_go]⟩,
      fun _ => by simp [bfs_go], fun h => h⟩
  | succ n ih =>
    intro depth level s
    by_cases hguard : level = [] ∨ c.max_depth.toNat < depth
    · simp only [bfs_go]
      rw [if_pos hguard]
      exact ⟨fun u hu => hu, fun u hu => hu, by simp,
        fun _ _ => ⟨by simp, by simp, fun _ => by simp⟩, fun _ => by simp, fun h => h⟩
    · simp only [bfs_go]
      rw [if_neg hguard]
      have hmd : depth ≤ c.max_depth.toNat := by
        rcases Nat.lt_or_ge c.max_depth.toNat depth with h | h
        · exact absurd (Or.inr h) hguard
        · exact h
      obtain ⟨l1, l2, l3, l4, l5, l6⟩ := runLevel_spec c env depth level s
      obtain ⟨b1, b2, b3, b4, b5, b6⟩ :=
        ih (depth + 1) (runLevel c env s level depth).2 (runLevel c env s level depth).1
      have hlmono : ∀ u, u ∈ s.runSt.seen →
          u ∈ (runLevel c env s level depth).1.runSt.seen := by
        intro u hu
        rw [l1]
        exact List.mem_append_right _ hu
      have hlnext : ∀ u, u ∈ (runLevel c env s level depth).2 →
          u ∈ (runLevel c env s level depth).1.runSt.seen := by
        intro u hu
        rw [l1]
        exact List.mem_append_left _ (List.mem_reverse.mpr hu)
      refine ⟨?_, ?_, ?_, ?_, ?_, ?_⟩
      · intro u hu
        exact b1 u (hlmono u hu)
      · intro u hu
        exact b2 u (l2 u hu)
      · intro q hq
        rcases List.mem_append.mp hq with h1 | h1
        · obtain ⟨u, hu, hqe⟩ := List.mem_map.mp h1
          rw [← hqe]
          exact ⟨Nat.le_refl depth, hmd⟩
        · obtain ⟨hq1, hq2⟩ := b3 q h1
          exact ⟨Nat.le_of_succ_le hq1, hq2⟩
      · intro hnd hsub
        obtain ⟨d1, d2, d3⟩ := b4 l4 hlnext
        have hmap : ((level.map (fun u => (u, depth))).map Prod.fst) = level := by
          simp [Function.comp_def]
        refine ⟨?_, ?_, ?_⟩
        · rw [List.map_append, hmap]
          refine List.nodup_append.mpr ⟨hnd, d1, ?_⟩
          intro a ha hb
          obtain ⟨q, hq, hqa⟩ := List.mem_map.mp hb
          rcases (d2 q hq).1 with h1 | h1
          · exact (l5 q.1 h1).1 (by rw [hqa]; exact hsub a ha)
          · exact h1 (hlmono q.1 (by rw [hqa]; exact hsub a ha))
        · intro q hq
          rcases List.mem_append.mp hq with h1 | h1
          · obtain ⟨u, hu, hqe⟩ := List.mem_map.mp h1
            rw [← hqe]
            exact ⟨Or.inl hu, b1 u (hlmono u (hsub u hu))⟩
          · obtain ⟨hd2a, hd2b⟩ := d2 q h1
            rcases hd2a with h2 | h2
            · exact ⟨Or.inr (l5 q.1 h2).1, hd2b⟩
            · exact ⟨Or.inr (fun hm => h2 (hlmono q.1 hm)), hd2b⟩
        · intro hnp q hq
          rcases List.mem_append.mp hq with h1 | h1
          · obtain ⟨u, hu, hqe⟩ := List.mem_map.mp h1
            rw [← hqe]
            exact hnp u hu
          · have hnext_np : ∀ u ∈ (runLevel c env s level depth).2,
                u ∉ (runLevel c env s level depth).1.runSt.processed := by
              intro u hu hmem
              rcases l3 u hmem with hc | hc
              · exact (l5 u hu).2.1 hc
              · exact (l5 u hu).1 (hsub u hc)
            exact fun hm => d3 hnext_np q h1 (l2 q.1 hm)
      · intro hall q hq
        rcases List.mem_append.mp hq with h1 | h1
        · obtain ⟨u, hu, hqe⟩ := List.mem_map.mp h1
          rw [← hqe]
          exact hall u hu
        · exact b5 (fun u hu => (l5 u hu).2.2) q h1
      · intro hnds
        have hl : (runLevel c env s level depth).1.runSt.seen.Nodup := by
          rw [l1]
          refine List.nodup_append.mpr ⟨List.nodup_reverse.mpr l4, hnds, ?_⟩
          intro a ha hb
          exact (l5 a (List.mem_reverse.mp ha)).1 hb
        exact b6 hl

/-- Invariants of the whole portal loop (link-yielding rounds): the seen
and processed sets only grow, the dispatched URLs of the entire run are
pairwise distinct, and every dispatched URL was unseen and unprocessed at
run start, ends up seen, passes the allow-list and is dispatched at a depth
in `[1, max_depth]`; seen-Nodup is preserved. -/
lemma portal_rounds_spec (c : Crawler) (env : PageEnv) :
    ∀ (n r : Nat) (s : CrawlState),
      (∀ u, u ∈ s.runSt.seen → u ∈ (portal_rounds c env n r s).1.runSt.seen) ∧
      (∀ u, u ∈ s.runSt.processed → u ∈ (portal_rounds c env n r s).1.runSt.processed) ∧
      ((portal_rounds c env n r s).2.map Prod.fst).Nodup ∧
      (∀ q ∈ (portal_rounds c env n r s).2,
        q.1 ∉ s.runSt.seen ∧ q.1 ∈ (portal_rounds c env n r s).1.runSt.seen ∧
        q.1 ∉ s.runSt.processed ∧ matchesAllowlist c.allowlist q.1 = true ∧
        1 ≤ q.2 ∧ q.2 ≤ c.max_depth.toNat) ∧
      (s.runSt.seen.Nodup → (portal_rounds c env n r s).1.runSt.seen.Nodup) := by
  intro n
  induction n with
  | zero =>
    intro r s
    exact ⟨fun u hu => hu, fun u hu => hu, by simp [portal_rounds],
      by simp [portal_rounds], fun h => h⟩
  | succ n ih =>
    intro r s
    simp only [portal_rounds, bfs_levels]
    obtain ⟨e1, e2, e3⟩ := extract_state c.allowlist (env.portalHrefs r) s.runSt
    obtain ⟨eo1, eo2⟩ := extract_out c.allowlist (env.portalHrefs r) s.runSt
    have hEmono : ∀ u, u ∈ s.runSt.seen →
        u ∈ (extract_links_from_page c.allowlist s.runSt (env.portalHrefs r)).1.seen := by
      intro u hu
      rw [e3]
      exact List.mem_append_right _ hu
    have hElev : ∀ u ∈ (extract_links_from_page c.allowlist s.runSt (env.portalHrefs r)).2,
        u ∈ (extract_links_from_page c.allowlist s.runSt (env.portalHrefs r)).1.seen := by
      intro u hu
      rw [e3]
      exact List.mem_append_left _ (List.mem_reverse.mpr hu)
    obtain ⟨b1, b2, b3, b4, b5, b6⟩ := bfs_go_spec c env (c.max_depth.toNat + 1) 1
      (extract_links_from_page c.allowlist s.runSt (env.portalHrefs r)).2
      { s with runSt := (extract_links_from_page c.allowlist s.runSt (env.portalHrefs r)).1 }
    obtain ⟨d1, d2, d3⟩ := b4 eo1 hElev
    obtain ⟨p1, p2, p3, p4, p5⟩ := ih (r + 1)
      (bfs_go c env (c.max_depth.toNat + 1)
        { s with runSt := (extract_links_from_page c.allowlist s.runSt (env.portalHrefs r)).1 }
        (extract_links_from_page c.allowlist s.runSt (env.portalHrefs r)).2 1).1
    have hsE : ∀ u, u ∈ s.runSt.processed ↔
        u ∈ ({ s with runSt :=
          (extract_links_from_page c.allowlist s.runSt (env.portalHrefs r)).1 } :
            CrawlState).runSt.processed := by
      intro u
      show u ∈ s.runSt.processed ↔
        u ∈ (extract_links_from_page c.allowlist s.runSt (env.portalHrefs r)).1.processed
      rw [e1]
    refine ⟨?_, ?_, ?_, ?_, ?_⟩
    · intro u hu
      exact p1 u (b1 u (hEmono u hu))
    · intro u hu
      exact p2 u (b2 u ((hsE u).mp hu))
    · rw [List.map_append]
      refine List.nodup_append.mpr ⟨d1, p3, ?_⟩
      intro a ha hb
      obtain ⟨qa, hqa, hqa2⟩ := List.mem_map.mp ha
      obtain ⟨qb, hqb, hqb2⟩ := List.mem_map.mp hb
      exact (p4 qb hqb).1 (by rw [hqb2, ← hqa2]; exact (d2 qa hqa).2)
    · intro q hq
      rcases List.mem_append.mp hq with h1 | h1
      · obtain ⟨hd2a, hd2b⟩ := d2 q h1
        refine ⟨?_, p1 q.1 hd2b, ?_, b5 (fun u hu => (eo2 u hu).2.2) q h1,
          (b3 q h1).1, (b3 q h1).2⟩
        · rcases hd2a with h2 | h2
          · exact (eo2 q.1 h2).1
          · exact fun hm => h2 (hEmono q.1 hm)
        · exact fun hm => d3 (fun u hu hmem => (eo2 u hu).2.1 ((hsE u).mpr hmem)) q h1
            ((hsE q.1).mp hm)
      · obtain ⟨q1, q2, q3, q4, q5, q6⟩ := p4 q h1
        refine ⟨?_, q2, ?_, q4, q5, q6⟩
        · exact fun hm => q1 (b1 q.1 (hEmono q.1 hm))
        · exact fun hm => q3 (b2 q.1 ((hsE q.1).mp hm))
    · intro hnds
      have hE : (extract_links_from_page c.allowlist s.runSt
          (env.portalHrefs r)).1.seen.Nodup := by
        rw [e3]
        refine List.nodup_append.mpr ⟨List.nodup_reverse.mpr eo1, hnds, ?_⟩
        intro a ha hb
        exact (eo2 a (List.mem_reverse.mp ha)).1 hb
      exact p5 (b6 hE)

/-- C3: within a single run, a URL enters `seen_urls` at most once (a
duplicate-free seen set stays duplicate-free through every extraction,
save and level), the URLs dispatched to the page processor over the whole
run are pairwise distinct, and a URL that is in `processed_urls` at run
start is never enqueued into any frontier level and never dispatched. -/
theorem C3_no_duplicate_processing (c : Crawler) (env : PageEnv) (n r : Nat)
    (s : CrawlState) :
    (s.runSt.seen.Nodup → (portal_rounds c env n r s).1.runSt.seen.Nodup) ∧
    ((portal_rounds c env n r s).2.map Prod.fst).Nodup ∧
    (∀ q ∈ (portal_rounds c env n r s).2, q.1 ∉ s.runSt.processed) := by
  obtain ⟨_, _, h3, h4, h5⟩ := portal_rounds_spec c env n r s
  exact ⟨h5, h3, fun q hq => (h4 q hq).2.2.1⟩

/-- Witness for C3 on the concrete one-round run: `https://x.test/a/1` is
dispatched, is not in the startup `processed_urls`, and both the dispatch
list and the final seen set are duplicate-free. -/
theorem C3_witness :
    st0W.runSt.seen.Nodup ∧
    (portal_rounds cW envW 1 0 st0W).1.runSt.seen.Nodup ∧
    ((portal_rounds cW envW 1 0 st0W).2.map Prod.fst).Nodup ∧
    (("https://x.test/a/1", 1) ∈ (portal_rounds cW envW 1 0 st0W).2 ∧
      "https://x.test/a/1" ∉ st0W.runSt.processed) :=
  ⟨by decide, (C3_no_duplicate_processing cW envW 1 0 st0W).1 (by decide),
    (C3_no_duplicate_processing cW envW 1 0 st0W).2.1,
    ⟨by decide, (C3_no_duplicate_processing cW envW 1 0 st0W).2.2
      ("https://x.test/a/1", 1) (by decide)⟩⟩

/-- C4: no URL is processed at a depth exceeding `max_depth`: every
`(url, depth)` pair dispatched by the BFS loop started at depth 1 has its
depth in `[1, max_depth]` (each deeper level is built only from the links
the previous level returned), and a page processed at depth ≥ `max_depth`
returns no outbound links — extraction is skipped. -/
theorem C4_depth_bound :
    (∀ (c : Crawler) (env : PageEnv) (s : CrawlState) (level : List String),
      ∀ q ∈ (bfs_levels c env s level 1).2, 1 ≤ q.2 ∧ q.2 ≤ c.max_depth.toNat) ∧
    (∀ (c : Crawler) (env : PageEnv) (s : CrawlState) (url : String) (depth : Nat),
      c.max_depth.toNat ≤ depth → (process_page_task c env s url depth).2 = []) := by
  constructor
  · intro c env s level q hq
    exact (bfs_go_spec c env (c.max_depth.toNat + 1) 1 level s).2.2.1 q hq
  · intro c env s url depth h
    exact (process_page_task_spec c env s url depth).2.2.2.2.2 h

/-- Witness for C4 on the concrete run (`max_depth = 2`): the deepest pair
dispatched sits at depth 2 ≤ 2, and a task at depth 2 emits no links. -/
theorem C4_witness :
    (("https://x.test/a/2", 2) ∈ (bfs_levels cW envW st0W ["https://x.test/a/1"] 1).2) ∧
    (1 ≤ 2 ∧ 2 ≤ cW.max_depth.toNat) ∧
    cW.max_depth.toNat ≤ 2 ∧
    (process_page_task cW envW st0W "https://u.test/x" 2).2 = [] :=
  ⟨by decide,
    C4_depth_bound.1 cW envW st0W ["https://x.test/a/1"] ("https://x.test/a/2", 2)
      (by decide),
    by decide, C4_depth_bound.2 cW envW st0W "https://u.test/x" 2 (by decide)⟩

/-- C8: the prefix filter: an empty allow-list passes every link; a
non-empty allow-list passes exactly the links starting with one of its
entries; with allow-list `["https://x.test/a/"]` the link
`https://x.test/b/1` is never dispatched in any round or level of any run
(the same `extract_links_from_page` filter is applied at the portal and at
every child page), while `https://x.test/a/1` is dispatched in the
concrete run below together with the allowed child link. -/
theorem C8_allowlist_filter :
    (∀ url, matchesAllowlist [] url = true) ∧
    (∀ (ps : List String) (url : String), ps ≠ [] →
      (matchesAllowlist ps url = true ↔ ∃ p ∈ ps, startswith url p = true)) ∧
    (∀ (c : Crawler) (env : PageEnv) (n r : Nat) (s : CrawlState),
      c.allowlist = ["https://x.test/a/"] →
      ∀ q ∈ (portal_rounds c env n r s).2, q.1 ≠ "https://x.test/b/1") ∧
    ((portal_rounds cW envW 1 0 st0W).2.map Prod.fst
      = ["https://x.test/a/1", "https://x.test/a/2"]) := by
  refine ⟨?_, ?_, ?_, ?_⟩
  · intro url
    rfl
  · intro ps url hps
    simp [matchesAllowlist, hps, List.any_eq_true]
  · intro c env n r s hc q hq hqeq
    have hall := ((portal_rounds_spec c env n r s).2.2.2.1 q hq).2.2.2.1
    rw [hqeq, hc] at hall
    exact absurd hall (by decide)
  · decide

/-- Witness for C8: the allow-list facts at the spec's concrete URLs, and
the dispatched `https://x.test/a/1` is distinct from the filtered
`https://x.test/b/1`. -/
theorem C8_witness :
    ((["https://x.test/a/"] : List String) ≠ []) ∧
    (matchesAllowlist ["https://x.test/a/"] "https://x.test/a/1" = true ↔
      ∃ p ∈ (["https://x.test/a/"] : List String),
        startswith "https://x.test/a/1" p = true) ∧
    cW.allowlist = ["https://x.test/a/"] ∧
    (("https://x.test/a/1", 1) ∈ (portal_rounds cW envW 1 0 st0W).2) ∧
    "https://x.test/a/1" ≠ "https://x.test/b/1" :=
  ⟨by decide,
    C8_allowlist_filter.2.1 ["https://x.test/a/"] "https://x.test/a/1" (by decide),
    rfl, by decide,
    C8_allowlist_filter.2.2.1 cW envW 1 0 st0W rfl ("https://x.test/a/1", 1) (by decide)⟩

/-- C6: the History record step runs if and only if the artifact export
succeeds: on export success `_save_pdf_from_page` returns a state whose
in-memory history mapping and `processed_urls` contain the URL; on an
export failure or its dedicated timeout it raises, and
`_process_page_task` (which catches the raise) leaves `processed_urls`,
the history mapping and the history file untouched, so the URL stays
eligible for retry on a future run. -/
theorem C6_record_iff_export (c : Crawler) (env : PageEnv) (s : CrawlState)
    (st : RunState) (d : DiskState) (url : String) (depth : Nat) :
    (env.pdfResult url = PdfResult.ok →
      ∃ p, save_pdf_from_page env st d url = Except.ok p ∧
        url ∈ p.1.processed ∧ url ∈ p.1.history.map Prod.fst) ∧
    (env.pdfResult url ≠ PdfResult.ok →
      (∃ e, save_pdf_from_page env st d url = Except.error e) ∧
      (process_page_task c env s url depth).1.runSt.processed = s.runSt.processed ∧
      (process_page_task c env s url depth).1.runSt.history = s.runSt.history ∧
      (process_page_task c env s url depth).1.disk = s.disk) := by
  constructor
  · intro hok
    refine ⟨((save_history_entry env.now (env.persist url) st d url
        (sanitize_filename (env.pageTitle url) 50 ++ "_" ++ env.urlHash url ++ ".pdf")
        (env.urlHash url)).1,
      (save_history_entry env.now (env.persist url) st d url
        (sanitize_filename (env.pageTitle url) 50 ++ "_" ++ env.urlHash url ++ ".pdf")
        (env.urlHash url)).2,
      sanitize_filename (env.pageTitle url) 50 ++ "_" ++ env.urlHash url ++ ".pdf"),
      ?_, ?_, ?_⟩
    · simp only [save_pdf_from_page, hok]
    · exact mem_setAdd_self url _
    · exact mem_keys_dictInsert url _ _
  · intro hne
    constructor
    · cases hpd : env.pdfResult url with
      | ok => exact absurd hpd hne
      | timeoutErr =>
        exact ⟨"PDF generation timed out", by simp [save_pdf_from_page, hpd]⟩
      | exportErr =>
        exact ⟨"Failed to save PDF", by simp [save_pdf_from_page, hpd]⟩
    · unfold process_page_task
      split
      · exact ⟨rfl, rfl, rfl⟩
      · split
        · exact ⟨rfl, rfl, rfl⟩
        · split
          next p hsv =>
            exfalso
            cases hpd : env.pdfResult url with
            | ok => exact hne hpd
            | timeoutErr =>
              simp only [save_pdf_from_page, hpd] at hsv
              exact Except.noConfusion hsv
            | exportErr =>
              simp only [save_pdf_from_page, hpd] at hsv
              exact Except.noConfusion hsv
          next e hsv =>
            split
            next hD =>
              have hx := extract_state c.allowlist (env.pageLinks url) s.runSt
              exact ⟨hx.1, hx.2.1, rfl⟩
            next hD =>
              exact ⟨rfl, rfl, rfl⟩

/-- Witness for C6: with the all-succeeding environment the URL is
recorded; with the failing-export environment the save raises. -/
theorem C6_witness :
    envW.pdfResult "https://x.test/a/1" = PdfResult.ok ∧
    (∃ p, save_pdf_from_page envW rs0W dk0W "https://x.test/a/1" = Except.ok p ∧
      "https://x.test/a/1" ∈ p.1.processed ∧
      "https://x.test/a/1" ∈ p.1.history.map Prod.fst) ∧
    envFailW.pdfResult "https://x.test/a/1" ≠ PdfResult.ok ∧
    (∃ e, save_pdf_from_page envFailW rs0W dk0W "https://x.test/a/1" = Except.error e) :=
  ⟨rfl, (C6_record_iff_export cW envW st0W rs0W dk0W "https://x.test/a/1" 1).1 rfl,
    by decide,
    ((C6_record_iff_export cW envFailW st0W rs0W dk0W "https://x.test/a/1" 1).2
      (by decide)).1⟩

end WebCrawler
